import Mathlib

/-! # SurfaceCollection (libslic3r)

A shallow embedding of `xs/src/libslic3r/SurfaceCollection.cpp` and the
properties of its bulk-mutation, query and grouping operations.

Conventions of the embedding:

* `std::vector<T>` is `List T`; a range-`for` or iterator loop is a left fold
  (or a structural recursion when it has a `break`).
* A borrowed pointer `Surface*` / `const Surface*` into a collection is a
  `SurfaceRef`: the position of the pointee together with the pointee itself
  (no operation that hands out pointers mutates a surface).
* `double` fields are exact rationals, `==` on them is equality; `unsigned`
  counters are naturals; `SurfaceType` is the integer value of the enumerator.
-/

namespace Slic3r

/-! ## Geometry types (declared outside `SurfaceCollection.cpp`) -/

/-- A point with scaled integer coordinates. -/
structure Point where
  x : Int
  y : Int
deriving DecidableEq, Repr

/-- A closed polygon: its vertex sequence. -/
structure Polygon where
  points : List Point
deriving DecidableEq, Repr

/-- A list of polygons. -/
abbrev Polygons := List Polygon

/-- A region with holes: one outer boundary and its hole boundaries. -/
structure ExPolygon where
  contour : Polygon
  holes : Polygons
deriving DecidableEq, Repr

/-- A list of regions. -/
abbrev ExPolygons := List ExPolygon

/-- Modelled from the spec: the conversion `ExPolygon::operator Polygons` (defined in
`ExPolygon.cpp`, outside this file), "outer + holes, each as one polygon": the
outer boundary followed by the holes. -/
def ExPolygon.to_polygons (e : ExPolygon) : Polygons :=
  e.contour :: e.holes

/-! ## Surfaces -/

/-- The classification tag of a surface, as the integer value of the enumerator
(the enumeration is bit-flag encoded, so tags can be combined with bitwise or). -/
abbrev SurfaceType := Nat

/-- Modelled from the spec: the `Surface` record (declared in `Surface.hpp`, outside
this file) with the data members the collection reads and copies. -/
structure Surface where
  surface_type : SurfaceType
  expolygon : ExPolygon
  thickness : Rat
  thickness_layers : Nat
  bridge_angle : Rat
deriving DecidableEq, Repr

/-- The default ("unset") values the two-argument `Surface(type, expolygon)`
constructor gives to the print parameters; the constructor is declared in
`Surface.hpp`, so the values are a parameter of the model. -/
structure SurfaceDefaults where
  thickness : Rat
  thickness_layers : Nat
  bridge_angle : Rat
deriving DecidableEq, Repr

/-- Modelled from the spec: the constructor `Surface(surfaceType, expolygon)`, "a fresh
Surface with default thickness/layers/bridge-angle and the given type". -/
def Surface.create (d : SurfaceDefaults) (surfaceType : SurfaceType) (e : ExPolygon) : Surface :=
  { surface_type := surfaceType, expolygon := e, thickness := d.thickness,
    thickness_layers := d.thickness_layers, bridge_angle := d.bridge_angle }

/-- The property tuple `(surface_type, thickness, thickness_layers, bridge_angle)`. -/
abbrev SurfaceTag := SurfaceType × Rat × Nat × Rat

/-- The property tuple of a surface. -/
def Surface.tag (s : Surface) : SurfaceTag :=
  (s.surface_type, s.thickness, s.thickness_layers, s.bridge_angle)

/-- The `surfaces` data member of a `SurfaceCollection`. -/
abbrev Surfaces := List Surface

/-- A borrowed pointer to a surface: where the pointee sits and what it is. -/
structure SurfaceRef where
  pos : Nat
  target : Surface
deriving DecidableEq, Repr

/-- A vector of borrowed pointers (`SurfacesPtr`, `SurfacesConstPtr`). -/
abbrev SurfacesPtr := List SurfaceRef

/-- The addresses `&s` met when iterating over a vector whose first element
has position `k`. -/
def surface_refs_from : Nat → Surfaces → SurfacesPtr
  | _, [] => []
  | k, s :: rest => ⟨k, s⟩ :: surface_refs_from (k + 1) rest

/-- The addresses of the surfaces of a collection, in collection order. -/
def surface_refs (surfaces : Surfaces) : SurfacesPtr :=
  surface_refs_from 0 surfaces

/-! ## The standard algorithms used by the collection -/

/-- The algorithm `std::find_if(begin, end, p)`: the index of the first element that
satisfies `p`, the length of the vector when there is none. -/
def find_if {α : Type} (p : α → Bool) : List α → Nat
  | [] => 0
  | x :: xs => if p x then 0 else find_if p xs + 1

/-- The compaction loop of `std::remove_if`,
`for (i = first; ++i != last; ) if (!p(*i)) *first++ = std::move(*i);`
with the vector, the write position `first` and the (already advanced) read
position `i` as state; the first argument counts the elements still to read. -/
def remove_if_loop {α : Type} (p : α → Bool) : Nat → List α → Nat → Nat → List α × Nat
  | 0, v, first, _ => (v, first)
  | fuel + 1, v, first, i =>
    match v[i]? with
    | none => (v, first)
    | some x =>
      if !p x then remove_if_loop p fuel (v.set first x) (first + 1) (i + 1)
      else remove_if_loop p fuel v first (i + 1)

/-- The algorithm `std::remove_if(begin, end, p)`: the vector after compaction and
the returned iterator (as an index), the new logical end. -/
def remove_if {α : Type} (p : α → Bool) (v : List α) : List α × Nat :=
  let first := find_if p v
  if first != v.length then remove_if_loop p (v.length - (first + 1)) v first (first + 1)
  else (v, first)

/-- The call `v.erase(ptr, v.cend())`: drop everything from position `ptr` on. -/
def erase_to_end {α : Type} (v : List α) (ptr : Nat) : List α :=
  v.take ptr

namespace SurfaceCollection

/-! ## Conversions -/

/-- The conversion `SurfaceCollection::operator Polygons() const`. -/
def to_polygons (surfaces : Surfaces) : Polygons :=
  surfaces.foldl (fun polygons surface => polygons ++ surface.expolygon.to_polygons) []

/-- The conversion `SurfaceCollection::operator ExPolygons() const`. -/
def to_expolygons (surfaces : Surfaces) : ExPolygons :=
  surfaces.foldl (fun expp surface => expp ++ [surface.expolygon]) []

/-! ## Type-driven deletion -/

/-- The method `SurfaceCollection::remove_type(type)`. -/
def remove_type (type : SurfaceType) (surfaces : Surfaces) : Surfaces :=
  let r := remove_if (fun s : Surface => s.surface_type == type) surfaces
  erase_to_end r.1 r.2

/-- The method `SurfaceCollection::remove_types(std::initializer_list<SurfaceType>)`. -/
def remove_types (types : List SurfaceType) (surfaces : Surfaces) : Surfaces :=
  types.foldl (fun cur t => remove_type t cur) surfaces

/-- The method `SurfaceCollection::keep_type(type)`. -/
def keep_type (type : SurfaceType) (surfaces : Surfaces) : Surfaces :=
  let r := remove_if (fun s : Surface => s.surface_type != type) surfaces
  erase_to_end r.1 r.2

/-- The method `SurfaceCollection::keep_types(std::initializer_list<SurfaceType>)`. -/
def keep_types (types : List SurfaceType) (surfaces : Surfaces) : Surfaces :=
  types.foldl (fun cur t => keep_type t cur) surfaces

/-! ## Filtering -/

/-- The inner loop of `filter_by_type`: scan `types` and stop at the first
entry equal to the surface's type. -/
def type_listed (t : SurfaceType) : List SurfaceType → Bool
  | [] => false
  | x :: xs => if t == x then true else type_listed t xs

/-- The method `SurfaceCollection::filter_by_type(std::initializer_list<SurfaceType>)`
(both the mutable and the `const` overload have this body). -/
def filter_by_type (types : List SurfaceType) (surfaces : Surfaces) : SurfacesPtr :=
  (surface_refs surfaces).foldl
    (fun ss r => if type_listed r.target.surface_type types then ss ++ [r] else ss) []

/-- The method `SurfaceCollection::filter_by_incl_type(flags_type, polygons)`; the
accumulator `*polygons` is threaded through the loop. -/
def filter_by_incl_type (flags_type : SurfaceType) (polygons : Polygons)
    (surfaces : Surfaces) : Polygons :=
  surfaces.foldl
    (fun out s =>
      if (s.surface_type ||| flags_type) != 0 then out ++ s.expolygon.to_polygons else out)
    polygons

/-! ## Bulk mutation -/

/-- The method `SurfaceCollection::append(const ExPolygons &src, SurfaceType surfaceType)`. -/
def append (d : SurfaceDefaults) (src : ExPolygons) (surfaceType : SurfaceType)
    (surfaces : Surfaces) : Surfaces :=
  src.foldl (fun cur it => cur ++ [Surface.create d surfaceType it]) surfaces

/-- The method `SurfaceCollection::polygons_count() const`. -/
def polygons_count (surfaces : Surfaces) : Nat :=
  surfaces.foldl (fun count it => count + (1 + it.expolygon.holes.length)) 0

/-- The method `SurfaceCollection::simplify(tolerance)`. The geometry kernel's
`ExPolygon::simplify(tolerance, &expp)` is the parameter `kernel_simplify`,
which returns the pieces it appends to the (empty) `expp`. -/
def simplify (kernel_simplify : ExPolygon → Rat → ExPolygons) (tolerance : Rat)
    (surfaces : Surfaces) : Surfaces :=
  surfaces.foldl
    (fun ss it_s =>
      (kernel_simplify it_s.expolygon tolerance).foldl
        (fun ss it_e => ss ++ [{ it_s with expolygon := it_e }]) ss)
    []

/-! ## Grouping -/

/-- The call `group->push_back(&*it)` for the group at index `k` of `retval`. -/
def push_to_group (k : Nat) (r : SurfaceRef) (retval : List SurfacesPtr) : List SurfacesPtr :=
  retval.modify (fun g => g ++ [r]) k

/-- The comparison made by the `const` variant of `group` between a group's key
surface and the scanned surface. -/
def same_properties (gkey it : Surface) : Bool :=
  gkey.surface_type == it.surface_type
    && gkey.thickness == it.thickness
    && gkey.thickness_layers == it.thickness_layers
    && gkey.bridge_angle == it.bridge_angle

/-- The search loop of `group(std::vector<SurfacesConstPtr>*) const`. The outer
`none` is the undefined `front()` of an empty group; `some none` is
`group == NULL` after the loop; `some (some k)` is a pointer to group `k`. -/
def find_group_const (it : Surface) : List SurfacesPtr → Option (Option Nat)
  | [] => some none
  | git :: rest =>
    match git.head? with
    | none => none
    | some gkey =>
      if same_properties gkey.target it then some (some 0)
      else
        match find_group_const it rest with
        | none => none
        | some none => some none
        | some (some k) => some (some (k + 1))

/-- One iteration of the outer loop of the `const` variant of `group`. -/
def group_const_step (retval : List SurfacesPtr) (it : SurfaceRef) :
    Option (List SurfacesPtr) :=
  match find_group_const it.target retval with
  | none => none
  | some (some k) => some (push_to_group k it retval)
  | some none =>
    let resized := retval ++ [[]]
    some (push_to_group (resized.length - 1) it resized)

/-- The outer loop of the `const` variant of `group` over the remaining surfaces. -/
def group_const_loop : SurfacesPtr → List SurfacesPtr → Option (List SurfacesPtr)
  | [], retval => some retval
  | it :: rest, retval =>
    match group_const_step retval it with
    | none => none
    | some retval1 => group_const_loop rest retval1

/-- The method `SurfaceCollection::group(std::vector<SurfacesConstPtr> *retval) const`:
the final `*retval`, or `none` when `front()` was taken of an empty group. -/
def group_const (surfaces : Surfaces) (retval : List SurfacesPtr) : Option (List SurfacesPtr) :=
  group_const_loop (surface_refs surfaces) retval

/-- The search loop of `group(std::vector<SurfacesPtr>*)`: the index of the first
group that is not empty and whose front could merge with the scanned surface;
`none` is `group == NULL`. The predicate `surfaces_could_merge` is declared
elsewhere and is a parameter. -/
def find_group (surfaces_could_merge : Surface → Surface → Bool) (it : Surface) :
    List SurfacesPtr → Option Nat
  | [] => none
  | git :: rest =>
    if !git.isEmpty
        && (match git.head? with
            | some front => surfaces_could_merge front.target it
            | none => false)
    then some 0
    else
      match find_group surfaces_could_merge it rest with
      | none => none
      | some k => some (k + 1)

/-- One iteration of the outer loop of the mutable variant of `group`. -/
def group_step (surfaces_could_merge : Surface → Surface → Bool)
    (retval : List SurfacesPtr) (it : SurfaceRef) : List SurfacesPtr :=
  match find_group surfaces_could_merge it.target retval with
  | some k => push_to_group k it retval
  | none =>
    let resized := retval ++ [[]]
    push_to_group (resized.length - 1) it resized

/-- The method `SurfaceCollection::group(std::vector<SurfacesPtr> *retval)`. -/
def group (surfaces_could_merge : Surface → Surface → Bool) (surfaces : Surfaces)
    (retval : List SurfacesPtr) : List SurfacesPtr :=
  (surface_refs surfaces).foldl (group_step surfaces_could_merge) retval

/-! ## Containment queries -/

/-- The method `SurfaceCollection::any_internal_contains(item)`. The classification
`Surface::is_internal` and the kernel test `ExPolygon::contains` are declared
elsewhere and are parameters. -/
def any_internal_contains {T : Type} (is_internal : Surface → Bool)
    (contains : ExPolygon → T → Bool) (item : T) : Surfaces → Bool
  | [] => false
  | surface :: rest =>
    if is_internal surface && contains surface.expolygon item then true
    else any_internal_contains is_internal contains item rest

/-- The method `SurfaceCollection::any_bottom_contains(item)`. The classification
`Surface::is_bottom` and the kernel test `ExPolygon::contains` are declared
elsewhere and are parameters. -/
def any_bottom_contains {T : Type} (is_bottom : Surface → Bool)
    (contains : ExPolygon → T → Bool) (item : T) : Surfaces → Bool
  | [] => false
  | surface :: rest =>
    if is_bottom surface && contains surface.expolygon item then true
    else any_bottom_contains is_bottom contains item rest

/-! ## The overloads that take a template surface or a C array -/

/-- The method `SurfaceCollection::append(const ExPolygons &src, const Surface &templ)`:
each iteration pushes a copy of the template and then overwrites the geometry
of the new last element. -/
def append_templ (src : ExPolygons) (templ : Surface) (surfaces : Surfaces) : Surfaces :=
  src.foldl
    (fun cur it =>
      let pushed := cur ++ [templ]
      pushed.modify (fun back => { back with expolygon := it }) (pushed.length - 1))
    surfaces

/-- The loop of `remove_types(const SurfaceType *types, size_t ntypes)` from index `i`
on; the first argument counts the iterations left, and reading `types[i]`
past the end of the array is a failure. -/
def remove_types_loop (types : List SurfaceType) : Nat → Nat → Surfaces → Option Surfaces
  | 0, _, surfaces => some surfaces
  | n + 1, i, surfaces =>
    match types[i]? with
    | none => none
    | some t => remove_types_loop types n (i + 1) (remove_type t surfaces)

/-- The method `SurfaceCollection::remove_types(const SurfaceType *types, size_t ntypes)`. -/
def remove_types_array (types : List SurfaceType) (ntypes : Nat) (surfaces : Surfaces) :
    Option Surfaces :=
  remove_types_loop types ntypes 0 surfaces

/-- The inner loop of `keep_types(const SurfaceType *types, size_t ntypes)` from index
`k` on: the final value of `keep`. The first argument counts the iterations
left (the counter `k` is taken as a natural number); reading `types[k]` past
the end of the array is a failure. -/
def keep_scan (st : SurfaceType) (types : List SurfaceType) : Nat → Nat → Option Bool
  | 0, _ => some false
  | n + 1, k =>
    match types[k]? with
    | none => none
    | some t => if st == t then some true else keep_scan st types n (k + 1)

/-- The call `std::swap(v[i], v[j])`. -/
def swap_at {α : Type} (v : List α) (i j : Nat) : List α :=
  match v[i]?, v[j]? with
  | some a, some b => (v.set i b).set j a
  | _, _ => v

/-- The outer loop of `keep_types(const SurfaceType *types, size_t ntypes)` with the
vector, the write position `j` and the read position `i` as state; the
first `Nat` counts the elements still to read. -/
def keep_types_loop (types : List SurfaceType) (ntypes : Nat) :
    Nat → Surfaces → Nat → Nat → Option (Surfaces × Nat)
  | 0, v, j, _ => some (v, j)
  | fuel + 1, v, j, i =>
    match v[i]? with
    | none => some (v, j)
    | some s =>
      match keep_scan s.surface_type types ntypes 0 with
      | none => none
      | some true =>
        keep_types_loop types ntypes fuel (if j < i then swap_at v i j else v) (j + 1) (i + 1)
      | some false => keep_types_loop types ntypes fuel v j (i + 1)

/-- The method `SurfaceCollection::keep_types(const SurfaceType *types, size_t ntypes)`. -/
def keep_types_array (types : List SurfaceType) (ntypes : Nat) (surfaces : Surfaces) :
    Option Surfaces :=
  match keep_types_loop types ntypes surfaces.length surfaces 0 0 with
  | none => none
  | some r => some (if r.2 < r.1.length then erase_to_end r.1 r.2 else r.1)

/-! ## Specification-level helpers -/

/-- The test "the group is not empty and its first member is accepted by `q`". -/
def front_accepts (q : Surface → Surface → Bool) (it : Surface) (g : SurfacesPtr) : Bool :=
  match g.head? with
  | some front => q front.target it
  | none => false

/-- Placement of one reference by a single pass over the groups: append it to the
first group whose front accepts it, else open a new group at the end. -/
def place (q : Surface → Surface → Bool) (r : SurfaceRef) : List SurfacesPtr → List SurfacesPtr
  | [] => [[r]]
  | g :: rest =>
    if front_accepts q r.target g then (g ++ [r]) :: rest else g :: place q r rest

/-- The first members of the non-empty groups, in group order. -/
def fronts (groups : List SurfacesPtr) : SurfacesPtr :=
  groups.filterMap List.head?

/-- The distinct property tuples met along a list of references, each listed where
it first appears. -/
def first_tags (l : SurfacesPtr) : List SurfaceTag :=
  l.foldl (fun ks r => if r.target.tag ∈ ks then ks else ks ++ [r.target.tag]) []

/-- The references of a list whose pointee has the property tuple `k`. -/
def with_tag (l : SurfacesPtr) (k : SurfaceTag) : SurfacesPtr :=
  l.filter (fun r => decide (r.target.tag = k))

/-- A sample surface with the given type and thickness over an empty region. -/
def sample_surface (t : SurfaceType) (th : Rat) : Surface :=
  { surface_type := t, expolygon := ⟨⟨[]⟩, []⟩, thickness := th,
    thickness_layers := 1, bridge_angle := -1 }

end SurfaceCollection

end Slic3r

/-! ## Theorems -/

namespace Slic3r

theorem find_if_le {α : Type} (p : α → Bool) (v : List α) : find_if p v ≤ v.length := by
  induction v with
  | nil => simp [find_if]
  | cons x xs ih =>
    by_cases h : p x = true
    · simp [find_if, h]
    · simp [find_if, h, ih]

theorem filter_split_at_find_if {α : Type} (p : α → Bool) (v : List α) :
    v.filter (fun x => !p x)
      = v.take (find_if p v) ++ (v.drop (find_if p v + 1)).filter (fun x => !p x) := by
  induction v with
  | nil => simp [find_if]
  | cons x xs ih =>
    by_cases h : p x = true
    · simp [find_if, h]
    · simp only [Bool.not_eq_true] at h
      simp [find_if, h]
      exact ih

theorem remove_if_loop_take {α : Type} (p : α → Bool) (fuel : Nat) :
    ∀ (v : List α) (first i : Nat), first < i → i + fuel = v.length →
      (remove_if_loop p fuel v first i).1.take (remove_if_loop p fuel v first i).2
        = v.take first ++ (v.drop i).filter (fun x => !p x) := by
  induction fuel with
  | zero =>
    intro v first i _ hlen
    have hi : v.length ≤ i := by omega
    simp [remove_if_loop, List.drop_eq_nil_of_le hi]
  | succ fuel ih =>
    intro v first i hlt hlen
    have hi : i < v.length := by omega
    have hget : v[i]? = some v[i] := List.getElem?_eq_getElem hi
    have hdrop : v.drop i = v[i] :: v.drop (i + 1) := List.drop_eq_getElem_cons hi
    by_cases hp : p v[i] = true
    · simp only [remove_if_loop, hget, hp, Bool.not_true, Bool.false_eq_true, if_false]
      rw [ih v first (i + 1) (by omega) (by omega), hdrop, List.filter_cons]
      simp only [hp, Bool.not_true, Bool.false_eq_true, if_false]
    · simp only [Bool.not_eq_true] at hp
      simp only [remove_if_loop, hget, hp, Bool.not_false, if_true]
      rw [ih (v.set first v[i]) (first + 1) (i + 1) (by omega) (by simp; omega)]
      rw [List.drop_set_of_lt _ _ (by omega : first < i + 1)]
      have h1 : (v.set first v[i]).take (first + 1) = v.take first ++ [v[i]] := by
        rw [List.take_succ, List.set_take,
          List.set_eq_of_length_le (by simp : (v.take first).length ≤ first)]
        simp [List.getElem?_set, (by omega : first < v.length)]
      rw [h1, hdrop, List.filter_cons]
      simp only [hp, Bool.not_false, if_true, List.append_assoc, List.singleton_append]

theorem remove_if_erase {α : Type} (p : α → Bool) (v : List α) :
    erase_to_end (remove_if p v).1 (remove_if p v).2 = v.filter (fun x => !p x) := by
  unfold erase_to_end remove_if
  have hle := find_if_le p v
  by_cases h : find_if p v = v.length
  · simp only [h, bne_self_eq_false, Bool.false_eq_true, if_false]
    rw [filter_split_at_find_if, h, List.drop_eq_nil_of_le (by omega)]
    simp
  · have hne : (find_if p v != v.length) = true := by simpa using h
    simp only [hne, if_true]
    rw [remove_if_loop_take p _ v _ _ (by omega) (by omega), ← filter_split_at_find_if]

theorem foldl_push_if {α : Type} (q : α → Bool) (l : List α) :
    ∀ init : List α,
      l.foldl (fun acc x => if q x then acc ++ [x] else acc) init = init ++ l.filter q := by
  induction l with
  | nil => simp
  | cons x xs ih =>
    intro init
    by_cases h : q x = true
    · simp [List.foldl_cons, h, ih]
    · simp [List.foldl_cons, h, ih]

theorem surface_refs_from_target (surfaces : Surfaces) :
    ∀ k, (surface_refs_from k surfaces).map SurfaceRef.target = surfaces := by
  induction surfaces with
  | nil => simp [surface_refs_from]
  | cons s rest ih => intro k; simp [surface_refs_from, ih]

theorem surface_refs_target_mem {surfaces : Surfaces} {r : SurfaceRef}
    (h : r ∈ surface_refs surfaces) : r.target ∈ surfaces := by
  have h1 : r.target ∈ (surface_refs surfaces).map SurfaceRef.target :=
    List.mem_map_of_mem _ h
  simpa [surface_refs, surface_refs_from_target] using h1

namespace SurfaceCollection

theorem type_listed_iff (t : SurfaceType) (types : List SurfaceType) :
    type_listed t types = true ↔ t ∈ types := by
  induction types with
  | nil => simp [type_listed]
  | cons x xs ih =>
    by_cases h : t = x
    · simp [type_listed, h]
    · simp [type_listed, h, ih]

theorem remove_type_eq_filter (type : SurfaceType) (surfaces : Surfaces) :
    remove_type type surfaces = surfaces.filter (fun s => s.surface_type != type) := by
  unfold remove_type
  rw [remove_if_erase]
  rfl

theorem keep_type_eq_filter (type : SurfaceType) (surfaces : Surfaces) :
    keep_type type surfaces = surfaces.filter (fun s => s.surface_type == type) := by
  unfold keep_type
  rw [remove_if_erase]
  congr 1
  funext s
  simp [bne]

theorem filter_by_type_eq_filter (types : List SurfaceType) (surfaces : Surfaces) :
    filter_by_type types surfaces
      = (surface_refs surfaces).filter (fun r => type_listed r.target.surface_type types) := by
  unfold filter_by_type
  rw [foldl_push_if]
  simp

/-- What the initializer-list `keep_types` computes: a surface survives when its
type equals every entry of the list. -/
theorem keep_types_eq_filter (types : List SurfaceType) :
    ∀ surfaces : Surfaces,
      keep_types types surfaces
        = surfaces.filter (fun s => types.all (fun t => s.surface_type == t)) := by
  induction types with
  | nil => intro surfaces; simp [keep_types]
  | cons t ts ih =>
    intro surfaces
    have hstep : keep_types (t :: ts) surfaces = keep_types ts (keep_type t surfaces) := rfl
    rw [hstep, ih, keep_type_eq_filter, List.filter_filter]
    congr 1
    funext s
    simp [Bool.and_comm]

theorem remove_types_eq_filter (types : List SurfaceType) :
    ∀ surfaces : Surfaces,
      remove_types types surfaces
        = surfaces.filter (fun s => !type_listed s.surface_type types) := by
  induction types with
  | nil => intro surfaces; simp [remove_types, type_listed]
  | cons t ts ih =>
    intro surfaces
    have hstep : remove_types (t :: ts) surfaces = remove_types ts (remove_type t surfaces) := rfl
    rw [hstep, ih, remove_type_eq_filter, List.filter_filter]
    congr 1
    funext s
    by_cases h : s.surface_type = t
    · simp [type_listed, h]
    · simp [type_listed, h]

/-- C1 (code at a failing input): `keep_types({1, 2})` on surfaces of types 1, 2 and 3
leaves nothing, while the surfaces whose type occurs in the list are the
first two; `keep_types({})` leaves the collection as it is, while no surface
has a type that occurs in the empty list. -/
theorem keep_types_two_types_keeps_nothing :
    keep_types [1, 2] [sample_surface 1 1, sample_surface 2 1, sample_surface 3 1] = []
      ∧ [sample_surface 1 1, sample_surface 2 1, sample_surface 3 1].filter
          (fun s => decide (s.surface_type ∈ [1, 2]))
        = [sample_surface 1 1, sample_surface 2 1]
      ∧ keep_types [] [sample_surface 1 1] = [sample_surface 1 1] := by
  decide

/-- C2 (code at a failing input): in an enumeration with the values 1, 2 and 4 the list
`{4}` is the complement of `{1, 2}`, yet on surfaces of types 1, 2 and 4
`keep_types({1, 2})` leaves nothing while `remove_types({4})` leaves the
first two surfaces. -/
theorem keep_types_differs_from_remove_types_of_complement :
    (∀ t ∈ [1, 2, 4], t ∈ [4] ↔ t ∉ [1, 2])
      ∧ keep_types [1, 2] [sample_surface 1 1, sample_surface 2 1, sample_surface 4 1] = []
      ∧ remove_types [4] [sample_surface 1 1, sample_surface 2 1, sample_surface 4 1]
        = [sample_surface 1 1, sample_surface 2 1] := by
  decide

/-- C3: after `remove_type(T)` the query `filter_by_type({T})` returns nothing, and the
surviving sequence is the original one with exactly the surfaces of type `T`
deleted, the survivors in their original relative order. -/
theorem remove_type_spec (T : SurfaceType) (surfaces : Surfaces) :
    filter_by_type [T] (remove_type T surfaces) = []
      ∧ remove_type T surfaces = surfaces.filter (fun s => decide (s.surface_type ≠ T)) := by
  have hrm : remove_type T surfaces = surfaces.filter (fun s => decide (s.surface_type ≠ T)) := by
    rw [remove_type_eq_filter]
    congr 1
    funext s
    by_cases h : s.surface_type = T <;> simp [bne, h]
  refine ⟨?_, hrm⟩
  rw [filter_by_type_eq_filter, List.filter_eq_nil_iff]
  intro r hr
  have hmem := surface_refs_target_mem hr
  rw [hrm, List.mem_filter] at hmem
  have hne : r.target.surface_type ≠ T := by simpa using hmem.2
  simp [type_listed, hne]

theorem foldl_push_map {α β : Type} (f : α → β) (l : List α) :
    ∀ init : List β, l.foldl (fun acc x => acc ++ [f x]) init = init ++ l.map f := by
  induction l with
  | nil => simp
  | cons x xs ih => intro init; simp [List.foldl_cons, ih]

theorem foldl_push_flat {α β : Type} (f : α → List β) (l : List α) :
    ∀ init : List β, l.foldl (fun acc x => acc ++ f x) init = init ++ l.flatMap f := by
  induction l with
  | nil => simp
  | cons x xs ih => intro init; simp [List.foldl_cons, ih]

theorem foldl_push_flat_if {α β : Type} (q : α → Bool) (f : α → List β) (l : List α) :
    ∀ init : List β,
      l.foldl (fun acc x => if q x then acc ++ f x else acc) init
        = init ++ (l.filter q).flatMap f := by
  induction l with
  | nil => simp
  | cons x xs ih =>
    intro init
    by_cases h : q x = true
    · simp [List.foldl_cons, h, ih]
    · simp [List.foldl_cons, h, ih]

theorem to_polygons_eq (surfaces : Surfaces) :
    to_polygons surfaces = surfaces.flatMap (fun s => s.expolygon.to_polygons) := by
  unfold to_polygons
  rw [foldl_push_flat]
  simp

theorem to_expolygons_eq (surfaces : Surfaces) :
    to_expolygons surfaces = surfaces.map Surface.expolygon := by
  unfold to_expolygons
  rw [foldl_push_map]
  simp

theorem append_eq (d : SurfaceDefaults) (src : ExPolygons) (t : SurfaceType)
    (surfaces : Surfaces) :
    append d src t surfaces = surfaces ++ src.map (Surface.create d t) := by
  unfold append
  rw [foldl_push_map]

theorem simplify_eq (kernel_simplify : ExPolygon → Rat → ExPolygons) (tolerance : Rat)
    (surfaces : Surfaces) :
    simplify kernel_simplify tolerance surfaces
      = surfaces.flatMap (fun s =>
          (kernel_simplify s.expolygon tolerance).map (fun piece => { s with expolygon := piece })) := by
  unfold simplify
  have h : (fun (ss : Surfaces) (it_s : Surface) =>
        (kernel_simplify it_s.expolygon tolerance).foldl
          (fun ss it_e => ss ++ [{ it_s with expolygon := it_e }]) ss)
      = (fun ss it_s => ss ++
          (kernel_simplify it_s.expolygon tolerance).map (fun piece => { it_s with expolygon := piece })) := by
    funext ss it_s
    rw [foldl_push_map]
  rw [h, foldl_push_flat]
  simp

theorem sum_ge_length_of_pos (l : List Nat) (h : ∀ x ∈ l, 1 ≤ x) : l.length ≤ l.sum := by
  induction l with
  | nil => simp
  | cons x xs ih =>
    have hx := h x (by simp)
    have := ih (fun y hy => h y (by simp [hy]))
    simp only [List.length_cons, List.sum_cons]
    omega

theorem all_one_of_sum_eq_length (l : List Nat) (h : ∀ x ∈ l, 1 ≤ x)
    (hsum : l.sum = l.length) : ∀ x ∈ l, x = 1 := by
  induction l with
  | nil => simp
  | cons x xs ih =>
    have hx := h x (by simp)
    have hxs : ∀ y ∈ xs, 1 ≤ y := fun y hy => h y (by simp [hy])
    have hge := sum_ge_length_of_pos xs hxs
    simp only [List.length_cons, List.sum_cons] at hsum
    intro y hy
    rcases List.mem_cons.1 hy with rfl | hy
    · omega
    · exact ih hxs (by omega) y hy

theorem simplify_length (kernel_simplify : ExPolygon → Rat → ExPolygons) (tolerance : Rat)
    (surfaces : Surfaces) :
    (simplify kernel_simplify tolerance surfaces).length
      = (surfaces.map (fun s => (kernel_simplify s.expolygon tolerance).length)).sum := by
  rw [simplify_eq]
  induction surfaces with
  | nil => simp
  | cons s rest ih => simp [ih]

/-- C4: `simplify(tolerance)` replaces the collection by the kernel's pieces of every
input surface, surface after surface and piece after piece in the kernel's
output order, each piece as one surface that copies the type, thickness,
layer count and bridge angle of its original; so the tags of the result are
the tags of the input, each repeated once per piece. -/
theorem simplify_spec (kernel_simplify : ExPolygon → Rat → ExPolygons) (tolerance : Rat)
    (surfaces : Surfaces) :
    simplify kernel_simplify tolerance surfaces
        = surfaces.flatMap (fun s =>
            (kernel_simplify s.expolygon tolerance).map (fun piece =>
              ({ surface_type := s.surface_type, expolygon := piece, thickness := s.thickness,
                 thickness_layers := s.thickness_layers, bridge_angle := s.bridge_angle } : Surface)))
      ∧ (simplify kernel_simplify tolerance surfaces).map Surface.tag
        = surfaces.flatMap (fun s =>
            List.replicate (kernel_simplify s.expolygon tolerance).length s.tag) := by
  refine ⟨simplify_eq kernel_simplify tolerance surfaces, ?_⟩
  rw [simplify_eq]
  induction surfaces with
  | nil => simp
  | cons s rest ih =>
    simp only [List.flatMap_cons, List.map_append, ih, List.map_map]
    congr 1
    rw [List.eq_replicate_iff]
    constructor
    · simp
    · intro b hb
      simp only [List.mem_map, Function.comp] at hb
      obtain ⟨_, _, rfl⟩ := hb
      rfl

/-- C5 (as stated, refuted): with a kernel that gives no piece for a region without
holes and two pieces for any other, a collection of one surface of each kind
has two surfaces before and after `simplify`, although the first surface
simplifies to zero pieces and the second to two. -/
theorem simplify_count_preserved_without_single_pieces :
    (simplify (fun e _ => if e.holes = [] then [] else [e, e]) 0
        [sample_surface 1 1, { sample_surface 1 1 with expolygon := ⟨⟨[]⟩, [⟨[]⟩]⟩ }]).length
        = [sample_surface 1 1,
           { sample_surface 1 1 with expolygon := ⟨⟨[]⟩, [⟨[]⟩]⟩ }].length
      ∧ ¬ ∀ s ∈ [sample_surface 1 1,
                 { sample_surface 1 1 with expolygon := ⟨⟨[]⟩, [⟨[]⟩]⟩ }],
            ((fun (e : ExPolygon) (_ : Rat) => if e.holes = [] then [] else [e, e])
              s.expolygon 0).length = 1 := by
  decide

/-- C5 (amended): when no input surface simplifies to zero pieces, an unchanged
surface count after `simplify(tolerance)` means that every input surface was
simplified to exactly one piece. -/
theorem simplify_count_preserved_only_if_single_pieces
    (kernel_simplify : ExPolygon → Rat → ExPolygons) (tolerance : Rat) (surfaces : Surfaces)
    (hpieces : ∀ s ∈ surfaces, (kernel_simplify s.expolygon tolerance).length ≠ 0)
    (hcount : (simplify kernel_simplify tolerance surfaces).length = surfaces.length) :
    ∀ s ∈ surfaces, (kernel_simplify s.expolygon tolerance).length = 1 := by
  intro s hs
  rw [simplify_length] at hcount
  apply all_one_of_sum_eq_length
      (surfaces.map (fun s => (kernel_simplify s.expolygon tolerance).length))
  · intro x hx
    obtain ⟨s', hs', rfl⟩ := List.mem_map.1 hx
    exact Nat.one_le_iff_ne_zero.2 (hpieces s' hs')
  · simpa using hcount
  · exact List.mem_map_of_mem _ hs

/-- C5 (amended), applied to a kernel that returns every region unchanged. -/
theorem simplify_count_preserved_only_if_single_pieces_witness :
    (∀ s ∈ [sample_surface 1 1, sample_surface 2 1],
        ((fun (e : ExPolygon) (_ : Rat) => [e]) s.expolygon 0).length ≠ 0)
      ∧ (simplify (fun e _ => [e]) 0 [sample_surface 1 1, sample_surface 2 1]).length
        = [sample_surface 1 1, sample_surface 2 1].length
      ∧ ∀ s ∈ [sample_surface 1 1, sample_surface 2 1],
          ((fun (e : ExPolygon) (_ : Rat) => [e]) s.expolygon 0).length = 1 :=
  ⟨by simp, by decide,
   simplify_count_preserved_only_if_single_pieces (fun e _ => [e]) 0
     [sample_surface 1 1, sample_surface 2 1] (by simp) (by decide)⟩

/-- C6: `polygons_count()`, the sum over the surfaces of one plus the number of holes,
is the length of the polygon sequence produced by `operator Polygons`. -/
theorem polygons_count_eq_length (surfaces : Surfaces) :
    polygons_count surfaces = (to_polygons surfaces).length := by
  rw [to_polygons_eq]
  unfold polygons_count
  have h : ∀ (l : Surfaces) (n : Nat),
      l.foldl (fun count it => count + (1 + it.expolygon.holes.length)) n
        = n + (l.flatMap (fun s => s.expolygon.to_polygons)).length := by
    intro l
    induction l with
    | nil => simp
    | cons s rest ih =>
      intro n
      simp only [List.foldl_cons, ih, List.flatMap_cons, List.length_append,
        ExPolygon.to_polygons, List.length_cons]
      omega
  simpa using h surfaces 0

/-- C7: `append(r, t)` followed by `operator ExPolygons` gives back the regions `r` in
the same order when the collection was empty, and the regions of the
collection followed by `r` otherwise. -/
theorem append_to_expolygons_roundtrip (d : SurfaceDefaults) (r : ExPolygons) (t : SurfaceType)
    (surfaces : Surfaces) :
    to_expolygons (append d r t []) = r
      ∧ to_expolygons (append d r t surfaces) = to_expolygons surfaces ++ r := by
  have hmap : (r.map (Surface.create d t)).map Surface.expolygon = r := by
    rw [List.map_map]
    have : (Surface.expolygon ∘ Surface.create d t) = id := by
      funext e; rfl
    rw [this, List.map_id]
  constructor
  · rw [append_eq, to_expolygons_eq, List.nil_append, hmap]
  · rw [append_eq, to_expolygons_eq, to_expolygons_eq, List.map_append, hmap]

/-- C10: `filter_by_incl_type(mask, out)` appends to the accumulator, after what it
already holds and in collection order, the flattened polygons of exactly the
surfaces whose `surface_type | mask` is not zero. -/
theorem filter_by_incl_type_spec (mask : SurfaceType) (out : Polygons) (surfaces : Surfaces) :
    filter_by_incl_type mask out surfaces
      = out ++ (surfaces.filter (fun s => decide ((s.surface_type ||| mask) ≠ 0))).flatMap
          (fun s => s.expolygon.to_polygons) := by
  unfold filter_by_incl_type
  rw [foldl_push_flat_if]
  congr 3
  funext s
  by_cases h : (s.surface_type ||| mask) = 0 <;> simp [bne, h]

/-! ### Both grouping loops place one reference per iteration -/

theorem push_to_new_group (r : SurfaceRef) (retval : List SurfacesPtr) :
    push_to_group ((retval ++ [[]]).length - 1) r (retval ++ [[]]) = retval ++ [[r]] := by
  induction retval with
  | nil => simp [push_to_group]
  | cons g rest ih =>
    simp only [push_to_group, List.cons_append, List.length_cons, List.length_append,
      List.length_nil, List.length_singleton, Nat.add_sub_cancel, Nat.zero_add] at ih ⊢
    rw [List.modify_succ_cons, ih]

theorem find_group_guard (q : Surface → Surface → Bool) (it : Surface) (g : SurfacesPtr) :
    (!g.isEmpty && (match g.head? with
        | some front => q front.target it
        | none => false)) = front_accepts q it g := by
  cases g <;> simp [front_accepts]

theorem group_step_eq_place (q : Surface → Surface → Bool) (r : SurfaceRef)
    (retval : List SurfacesPtr) : group_step q retval r = place q r retval := by
  induction retval with
  | nil => simp [group_step, find_group, place, push_to_group]
  | cons g rest ih =>
    unfold group_step at ih ⊢
    simp only [find_group, find_group_guard, place]
    by_cases hacc : front_accepts q r.target g = true
    · simp [hacc, push_to_group]
    · simp only [hacc, Bool.false_eq_true, if_false]
      cases hfind : find_group q r.target rest with
      | none =>
        simp only [hfind] at ih ⊢
        rw [push_to_new_group] at ih ⊢
        rw [← ih]
        rfl
      | some k =>
        simp only [hfind] at ih ⊢
        rw [← ih]
        simp [push_to_group]

theorem find_group_const_eq (it : Surface) (retval : List SurfacesPtr)
    (hne : ∀ g ∈ retval, g ≠ []) :
    find_group_const it retval = some (find_group same_properties it retval) := by
  induction retval with
  | nil => rfl
  | cons g rest ih =>
    have hrest := ih (fun g' hg' => hne g' (by simp [hg']))
    cases g with
    | nil => exact absurd rfl (hne [] (by simp))
    | cons f tl =>
      by_cases hsame : same_properties f.target it = true
      · simp [find_group_const, find_group, hsame]
      · simp only [find_group_const, find_group, List.head?_cons, hsame, hrest]
        cases find_group same_properties it rest <;> simp

theorem group_const_step_eq_place (r : SurfaceRef) (retval : List SurfacesPtr)
    (hne : ∀ g ∈ retval, g ≠ []) :
    group_const_step retval r = some (place same_properties r retval) := by
  rw [← group_step_eq_place]
  unfold group_const_step group_step
  rw [find_group_const_eq r.target retval hne]
  cases find_group same_properties r.target retval <;> rfl

theorem place_ne_nil (q : Surface → Surface → Bool) (r : SurfaceRef)
    (groups : List SurfacesPtr) (hne : ∀ g ∈ groups, g ≠ []) :
    ∀ g ∈ place q r groups, g ≠ [] := by
  induction groups with
  | nil => simp [place]
  | cons g rest ih =>
    have hg : g ≠ [] := hne g (by simp)
    have hrest := ih (fun g' hg' => hne g' (by simp [hg']))
    by_cases hacc : front_accepts q r.target g = true
    · simp only [place, hacc, if_true]
      intro g' hg'
      rcases List.mem_cons.1 hg' with rfl | h
      · simp
      · exact hne g' (by simp [h])
    · simp only [place, hacc, Bool.false_eq_true, if_false]
      intro g' hg'
      rcases List.mem_cons.1 hg' with rfl | h
      · exact hg
      · exact hrest g' h

theorem group_const_loop_eq (l : SurfacesPtr) :
    ∀ retval : List SurfacesPtr, (∀ g ∈ retval, g ≠ []) →
      group_const_loop l retval
        = some (l.foldl (fun groups r => place same_properties r groups) retval) := by
  induction l with
  | nil => intro retval _; rfl
  | cons r rest ih =>
    intro retval hne
    simp only [group_const_loop, group_const_step_eq_place r retval hne, List.foldl_cons]
    exact ih _ (place_ne_nil same_properties r retval hne)

theorem group_eq_foldl_place (q : Surface → Surface → Bool) (surfaces : Surfaces)
    (retval : List SurfacesPtr) :
    group q surfaces retval
      = (surface_refs surfaces).foldl (fun groups r => place q r groups) retval := by
  unfold group
  congr 1
  funext groups r
  exact group_step_eq_place q r groups

end SurfaceCollection

end Slic3r

namespace Slic3r

theorem surface_refs_from_append (a b : Surfaces) :
    ∀ k, surface_refs_from k (a ++ b)
      = surface_refs_from k a ++ surface_refs_from (k + a.length) b := by
  induction a with
  | nil => intro k; simp [surface_refs_from]
  | cons s rest ih =>
    intro k
    have hk : k + 1 + rest.length = k + (rest.length + 1) := by omega
    have h := ih (k + 1)
    rw [hk] at h
    simp only [List.cons_append, surface_refs_from, List.length_cons]
    exact congrArg (List.cons _) h

theorem surface_refs_concat (surfaces : Surfaces) (s : Surface) :
    surface_refs (surfaces ++ [s]) = surface_refs surfaces ++ [⟨surfaces.length, s⟩] := by
  simp [surface_refs, surface_refs_from_append, surface_refs_from]

namespace SurfaceCollection

/-! ### Invariants of the placement -/

theorem front_accepts_eq_true {q : Surface → Surface → Bool} {it : Surface} {g : SurfacesPtr}
    (h : front_accepts q it g = true) :
    ∃ f, g.head? = some f ∧ q f.target it = true := by
  cases g with
  | nil => simp [front_accepts] at h
  | cons f tl => exact ⟨f, rfl, by simpa [front_accepts] using h⟩

theorem place_members (q : Surface → Surface → Bool) (r : SurfaceRef)
    (groups : List SurfacesPtr) :
    ∀ g ∈ place q r groups, ∀ s ∈ g, s = r ∨ ∃ g0 ∈ groups, s ∈ g0 := by
  induction groups with
  | nil =>
    intro g hg s hs
    simp only [place, List.mem_singleton] at hg
    subst hg
    left
    simpa using hs
  | cons g0 rest ih =>
    intro g hg s hs
    by_cases hacc : front_accepts q r.target g0 = true
    · simp only [place, hacc, if_true, List.mem_cons] at hg
      rcases hg with rfl | hg
      · rcases List.mem_append.1 hs with h | h
        · exact Or.inr ⟨g0, by simp, h⟩
        · left; simpa using h
      · exact Or.inr ⟨g, by simp [hg], hs⟩
    · simp only [place, hacc, Bool.false_eq_true, if_false, List.mem_cons] at hg
      rcases hg with rfl | hg
      · exact Or.inr ⟨g, by simp, hs⟩
      · rcases ih g hg s hs with h | ⟨g1, hg1, h⟩
        · exact Or.inl h
        · exact Or.inr ⟨g1, by simp [hg1], h⟩

theorem place_tail_accepted (q : Surface → Surface → Bool) (r : SurfaceRef)
    (groups : List SurfacesPtr)
    (h : ∀ g ∈ groups, ∀ f, g.head? = some f → ∀ m ∈ g.tail, q f.target m.target = true) :
    ∀ g ∈ place q r groups, ∀ f, g.head? = some f →
      ∀ m ∈ g.tail, q f.target m.target = true := by
  induction groups with
  | nil =>
    intro g hg f _ m hm
    simp only [place, List.mem_singleton] at hg
    subst hg
    simp at hm
  | cons g0 rest ih =>
    have hrest := ih (fun g hg => h g (by simp [hg]))
    intro g hg f hf m hm
    by_cases hacc : front_accepts q r.target g0 = true
    · simp only [place, hacc, if_true, List.mem_cons] at hg
      rcases hg with rfl | hg
      · obtain ⟨f0, hf0, hq⟩ := front_accepts_eq_true hacc
        cases g0 with
        | nil => simp at hf0
        | cons a tl =>
          simp only [List.head?_cons, Option.some.injEq] at hf0
          simp only [List.cons_append, List.head?_cons, Option.some.injEq] at hf
          simp only [List.cons_append, List.tail_cons] at hm
          subst hf0
          subst hf
          rcases List.mem_append.1 hm with hm | hm
          · exact h (a :: tl) (by simp) a rfl m (by simpa using hm)
          · have : m = r := by simpa using hm
            subst this
            exact hq
      · exact h g (by simp [hg]) f hf m hm
    · simp only [place, hacc, Bool.false_eq_true, if_false, List.mem_cons] at hg
      rcases hg with rfl | hg
      · exact h g (by simp) f hf m hm
      · exact hrest g hg f hf m hm

theorem place_earlier_fronts_reject (q : Surface → Surface → Bool) (r : SurfaceRef)
    (groups : List SurfacesPtr)
    (h : groups.Pairwise (fun g g' =>
      ∀ f, g.head? = some f → ∀ s ∈ g', q f.target s.target = false)) :
    (place q r groups).Pairwise (fun g g' =>
      ∀ f, g.head? = some f → ∀ s ∈ g', q f.target s.target = false) := by
  induction groups with
  | nil => simp [place]
  | cons g0 rest ih =>
    rw [List.pairwise_cons] at h
    by_cases hacc : front_accepts q r.target g0 = true
    · simp only [place, hacc, if_true]
      rw [List.pairwise_cons]
      refine ⟨?_, h.2⟩
      intro g' hg' f hf s hs
      obtain ⟨f0, hf0, _⟩ := front_accepts_eq_true hacc
      cases g0 with
      | nil => simp at hf0
      | cons a tl =>
        simp only [List.cons_append, List.head?_cons, Option.some.injEq] at hf
        exact h.1 g' hg' f (by simp [hf]) s hs
    · simp only [place, hacc, Bool.false_eq_true, if_false]
      rw [List.pairwise_cons]
      refine ⟨?_, ih h.2⟩
      intro g' hg' f hf s hs
      rcases place_members q r rest g' hg' s hs with rfl | ⟨g1, hg1, hs1⟩
      · simpa [front_accepts, hf] using hacc
      · exact h.1 g1 hg1 f hf s hs1

theorem place_at_first_accepting (q : Surface → Surface → Bool) (r : SurfaceRef)
    (A : List SurfacesPtr) (g : SurfacesPtr) (B : List SurfacesPtr)
    (hA : ∀ a ∈ A, front_accepts q r.target a = false)
    (hg : front_accepts q r.target g = true) :
    place q r (A ++ g :: B) = A ++ (g ++ [r]) :: B := by
  induction A with
  | nil => simp [place, hg]
  | cons a rest ih =>
    have ha := hA a (by simp)
    have hrest := ih (fun a' ha' => hA a' (by simp [ha']))
    simp only [List.cons_append, place, ha, Bool.false_eq_true, if_false]
    exact congrArg (List.cons a) hrest

theorem place_when_none_accepts (q : Surface → Surface → Bool) (r : SurfaceRef)
    (groups : List SurfacesPtr) (h : ∀ g ∈ groups, front_accepts q r.target g = false) :
    place q r groups = groups ++ [[r]] := by
  induction groups with
  | nil => rfl
  | cons a rest ih =>
    have ha := h a (by simp)
    have hrest := ih (fun a' ha' => h a' (by simp [ha']))
    simp only [List.cons_append, place, ha, Bool.false_eq_true, if_false]
    exact congrArg (List.cons a) hrest

theorem foldl_place_invariants (q : Surface → Surface → Bool) (l : SurfacesPtr) :
    ∀ groups : List SurfacesPtr,
      ((∀ g ∈ groups, g ≠ [])
        ∧ (∀ g ∈ groups, ∀ f, g.head? = some f → ∀ m ∈ g.tail, q f.target m.target = true)
        ∧ groups.Pairwise (fun g g' =>
            ∀ f, g.head? = some f → ∀ s ∈ g', q f.target s.target = false)) →
      ((∀ g ∈ l.foldl (fun groups r => place q r groups) groups, g ≠ [])
        ∧ (∀ g ∈ l.foldl (fun groups r => place q r groups) groups,
            ∀ f, g.head? = some f → ∀ m ∈ g.tail, q f.target m.target = true)
        ∧ (l.foldl (fun groups r => place q r groups) groups).Pairwise (fun g g' =>
            ∀ f, g.head? = some f → ∀ s ∈ g', q f.target s.target = false)) := by
  induction l with
  | nil => intro groups h; exact h
  | cons r rest ih =>
    intro groups h
    exact ih _ ⟨place_ne_nil q r groups h.1, place_tail_accepted q r groups h.2.1,
      place_earlier_fronts_reject q r groups h.2.2⟩

/-- C9: group-by-mergeability started with an empty result. Every group is non-empty;
every non-first member of a group is accepted by `could_merge` against the
group's first member; the first member of a group rejects every member of
every later group; and scanning one more surface `s` appends it to the first
group whose first member accepts it, or opens a new last group when no first
member accepts it. Only first members are ever tested. -/
theorem group_places_by_first_member (could_merge : Surface → Surface → Bool)
    (surfaces : Surfaces) :
    (∀ g ∈ group could_merge surfaces [], g ≠ [])
      ∧ (∀ g ∈ group could_merge surfaces [], ∀ f, g.head? = some f →
          ∀ m ∈ g.tail, could_merge f.target m.target = true)
      ∧ (group could_merge surfaces []).Pairwise (fun g g' =>
          ∀ f, g.head? = some f → ∀ s ∈ g', could_merge f.target s.target = false)
      ∧ (∀ (s : Surface) (A : List SurfacesPtr) (g : SurfacesPtr) (B : List SurfacesPtr),
          group could_merge surfaces [] = A ++ g :: B →
          (∀ a ∈ A, front_accepts could_merge s a = false) →
          front_accepts could_merge s g = true →
          group could_merge (surfaces ++ [s]) [] = A ++ (g ++ [⟨surfaces.length, s⟩]) :: B)
      ∧ (∀ s : Surface,
          (∀ g ∈ group could_merge surfaces [], front_accepts could_merge s g = false) →
          group could_merge (surfaces ++ [s]) []
            = group could_merge surfaces [] ++ [[⟨surfaces.length, s⟩]]) := by
  have hstep : ∀ s : Surface, group could_merge (surfaces ++ [s]) []
      = place could_merge ⟨surfaces.length, s⟩ (group could_merge surfaces []) := by
    intro s
    rw [group_eq_foldl_place, group_eq_foldl_place, surface_refs_concat, List.foldl_append]
    rfl
  have hinv := foldl_place_invariants could_merge (surface_refs surfaces) []
    ⟨by simp, by simp, List.Pairwise.nil⟩
  rw [← group_eq_foldl_place] at hinv
  refine ⟨hinv.1, hinv.2.1, hinv.2.2, ?_, ?_⟩
  · intro s A g B hG hA hg
    rw [hstep, hG]
    exact place_at_first_accepting could_merge ⟨surfaces.length, s⟩ A g B hA hg
  · intro s hnone
    rw [hstep]
    exact place_when_none_accepts could_merge ⟨surfaces.length, s⟩ _ hnone

/-! ### Grouping by identical properties -/

theorem same_properties_iff (a b : Surface) :
    same_properties a b = true ↔ a.tag = b.tag := by
  simp [same_properties, Surface.tag, and_assoc]

theorem first_tags_concat (l : SurfacesPtr) (r : SurfaceRef) :
    first_tags (l ++ [r])
      = if r.target.tag ∈ first_tags l then first_tags l
        else first_tags l ++ [r.target.tag] := by
  simp [first_tags, List.foldl_append]

theorem mem_first_tags (l : SurfacesPtr) (t : SurfaceTag) :
    t ∈ first_tags l ↔ ∃ r ∈ l, r.target.tag = t := by
  induction l using List.reverseRecOn with
  | nil => simp [first_tags]
  | append_singleton l r ih =>
    rw [first_tags_concat]
    by_cases hmem : r.target.tag ∈ first_tags l
    · simp only [hmem, if_true, ih, List.mem_append, List.mem_singleton]
      constructor
      · rintro ⟨x, hx, rfl⟩
        exact ⟨x, Or.inl hx, rfl⟩
      · rintro ⟨x, hx | rfl, rfl⟩
        · exact ⟨x, hx, rfl⟩
        · exact (ih.1 (by simpa [ih] using hmem))
    · simp only [hmem, if_false, List.mem_append, List.mem_singleton, ih]
      constructor
      · rintro (⟨x, hx, rfl⟩ | rfl)
        · exact ⟨x, Or.inl hx, rfl⟩
        · exact ⟨r, Or.inr rfl, rfl⟩
      · rintro ⟨x, hx | rfl, rfl⟩
        · exact Or.inl ⟨x, hx, rfl⟩
        · exact Or.inr rfl

theorem first_tags_nodup (l : SurfacesPtr) : (first_tags l).Nodup := by
  induction l using List.reverseRecOn with
  | nil => simp [first_tags]
  | append_singleton l r ih =>
    rw [first_tags_concat]
    by_cases hmem : r.target.tag ∈ first_tags l
    · simpa [hmem] using ih
    · simp only [hmem, if_false]
      rw [List.nodup_append]
      refine ⟨ih, by simp, ?_⟩
      intro a ha hb
      have : a = r.target.tag := by simpa using hb
      exact hmem (this ▸ ha)

theorem with_tag_concat (l : SurfacesPtr) (r : SurfaceRef) (k : SurfaceTag) :
    with_tag (l ++ [r]) k = if r.target.tag = k then with_tag l k ++ [r] else with_tag l k := by
  by_cases h : r.target.tag = k
  · simp [with_tag, List.filter_append, h]
  · simp [with_tag, List.filter_append, h]

theorem with_tag_head (l : SurfacesPtr) (k : SurfaceTag) (hk : k ∈ first_tags l) :
    ∃ f, (with_tag l k).head? = some f ∧ f.target.tag = k := by
  obtain ⟨r, hr, hrk⟩ := (mem_first_tags l k).1 hk
  have hmem : r ∈ with_tag l k := by simp [with_tag, hr, hrk]
  cases hw : with_tag l k with
  | nil => rw [hw] at hmem; simp at hmem
  | cons f tl =>
    refine ⟨f, rfl, ?_⟩
    have hf : f ∈ with_tag l k := by rw [hw]; simp
    simpa [with_tag] using (List.mem_filter.1 hf).2

theorem place_with_tag (l : SurfacesPtr) (r : SurfaceRef) (ks : List SurfaceTag)
    (hnd : ks.Nodup)
    (hhead : ∀ k ∈ ks, ∃ f, (with_tag l k).head? = some f ∧ f.target.tag = k) :
    place same_properties r (ks.map (with_tag l))
      = ks.map (with_tag (l ++ [r])) ++ (if r.target.tag ∈ ks then [] else [[r]]) := by
  induction ks with
  | nil => simp [place]
  | cons k rest ih =>
    rw [List.nodup_cons] at hnd
    have hrest := ih hnd.2 (fun k' hk' => hhead k' (by simp [hk']))
    obtain ⟨f, hf, hfk⟩ := hhead k (by simp)
    by_cases hk : r.target.tag = k
    · have hacc : front_accepts same_properties r.target (with_tag l k) = true := by
        simp only [front_accepts, hf]
        rw [same_properties_iff, hfk, hk]
      have hsame : ∀ k' ∈ rest, with_tag (l ++ [r]) k' = with_tag l k' := by
        intro k' hk'
        have hne : r.target.tag ≠ k' := fun h => hnd.1 (by rw [← hk, h]; exact hk')
        simp [with_tag_concat, hne]
      simp only [List.map_cons, place, hacc, if_true, hk, List.mem_cons, true_or,
        List.append_nil]
      rw [List.map_congr_left hsame, with_tag_concat, if_pos hk]
    · have hacc : front_accepts same_properties r.target (with_tag l k) = false := by
        simp only [front_accepts, hf]
        rw [Bool.eq_false_iff, Ne, same_properties_iff, hfk]
        exact fun h => hk h.symm
      have hkeep : with_tag (l ++ [r]) k = with_tag l k := by
        simp [with_tag_concat, hk]
      simp only [List.map_cons, place, hacc, Bool.false_eq_true, if_false, hrest, hkeep,
        List.cons_append, List.mem_cons, hk, false_or]

theorem place_grouped (l : SurfacesPtr) (r : SurfaceRef) :
    place same_properties r ((first_tags l).map (with_tag l))
      = (first_tags (l ++ [r])).map (with_tag (l ++ [r])) := by
  rw [place_with_tag l r (first_tags l) (first_tags_nodup l) (with_tag_head l),
    first_tags_concat]
  by_cases hmem : r.target.tag ∈ first_tags l
  · simp [hmem]
  · have hnone : with_tag l r.target.tag = [] := by
      rw [with_tag, List.filter_eq_nil_iff]
      intro x hx
      have hne : x.target.tag ≠ r.target.tag :=
        fun h => hmem ((mem_first_tags l _).2 ⟨x, hx, h⟩)
      simpa using hne
    simp [hmem, with_tag_concat, hnone]

theorem foldl_place_grouped (l1 : SurfacesPtr) :
    ∀ l0 : SurfacesPtr,
      l1.foldl (fun groups r => place same_properties r groups)
          ((first_tags l0).map (with_tag l0))
        = (first_tags (l0 ++ l1)).map (with_tag (l0 ++ l1)) := by
  induction l1 with
  | nil => intro l0; simp
  | cons r rest ih =>
    intro l0
    rw [List.foldl_cons, place_grouped, ih (l0 ++ [r])]
    simp

theorem group_const_eq_grouped (surfaces : Surfaces) :
    group_const surfaces []
      = some ((first_tags (surface_refs surfaces)).map (with_tag (surface_refs surfaces))) := by
  unfold group_const
  rw [group_const_loop_eq _ [] (by simp)]
  have h := foldl_place_grouped (surface_refs surfaces) []
  simpa [first_tags] using h

/-! ### Groups appear in the order of their first members -/

theorem place_heads (q : Surface → Surface → Bool) (r : SurfaceRef)
    (groups : List SurfacesPtr) :
    ∀ g ∈ place q r groups, ∀ f, g.head? = some f →
      f = r ∨ ∃ g0 ∈ groups, g0.head? = some f := by
  induction groups with
  | nil =>
    intro g hg f hf
    simp only [place, List.mem_singleton] at hg
    subst hg
    left
    simpa using hf.symm
  | cons g0 rest ih =>
    intro g hg f hf
    by_cases hacc : front_accepts q r.target g0 = true
    · simp only [place, hacc, if_true, List.mem_cons] at hg
      rcases hg with rfl | hg
      · obtain ⟨f0, hf0, _⟩ := front_accepts_eq_true hacc
        cases g0 with
        | nil => simp at hf0
        | cons a tl =>
          simp only [List.cons_append, List.head?_cons] at hf
          exact Or.inr ⟨a :: tl, by simp, by simpa using hf⟩
      · exact Or.inr ⟨g, by simp [hg], hf⟩
    · simp only [place, hacc, Bool.false_eq_true, if_false, List.mem_cons] at hg
      rcases hg with rfl | hg
      · exact Or.inr ⟨g, by simp, hf⟩
      · rcases ih g hg f hf with h | ⟨g1, hg1, h⟩
        · exact Or.inl h
        · exact Or.inr ⟨g1, by simp [hg1], h⟩

theorem place_front_order (q : Surface → Surface → Bool) (r : SurfaceRef)
    (groups : List SurfacesPtr)
    (hord : groups.Pairwise (fun g g' =>
      ∀ f f', g.head? = some f → g'.head? = some f' → f.pos < f'.pos))
    (hlt : ∀ g ∈ groups, ∀ f, g.head? = some f → f.pos < r.pos) :
    (place q r groups).Pairwise (fun g g' =>
      ∀ f f', g.head? = some f → g'.head? = some f' → f.pos < f'.pos) := by
  induction groups with
  | nil => simp [place]
  | cons g0 rest ih =>
    rw [List.pairwise_cons] at hord
    by_cases hacc : front_accepts q r.target g0 = true
    · simp only [place, hacc, if_true]
      rw [List.pairwise_cons]
      refine ⟨?_, hord.2⟩
      intro g' hg' f f' hf hf'
      obtain ⟨f0, hf0, _⟩ := front_accepts_eq_true hacc
      cases g0 with
      | nil => simp at hf0
      | cons a tl =>
        simp only [List.cons_append, List.head?_cons] at hf
        exact hord.1 g' hg' f f' (by simpa using hf) hf'
    · simp only [place, hacc, Bool.false_eq_true, if_false]
      rw [List.pairwise_cons]
      refine ⟨?_, ih hord.2 (fun g hg => hlt g (by simp [hg]))⟩
      intro g' hg' f f' hf hf'
      rcases place_heads q r rest g' hg' f' hf' with rfl | ⟨g1, hg1, h1⟩
      · exact hlt g0 (by simp) f hf
      · exact hord.1 g1 hg1 f f' hf h1

theorem foldl_place_front_order (q : Surface → Surface → Bool) (surfaces : Surfaces) :
    ∀ (k : Nat) (groups : List SurfacesPtr),
      groups.Pairwise (fun g g' =>
        ∀ f f', g.head? = some f → g'.head? = some f' → f.pos < f'.pos) →
      (∀ g ∈ groups, ∀ f, g.head? = some f → f.pos < k) →
      ((surface_refs_from k surfaces).foldl (fun groups r => place q r groups) groups).Pairwise
        (fun g g' => ∀ f f', g.head? = some f → g'.head? = some f' → f.pos < f'.pos) := by
  induction surfaces with
  | nil => intro k groups hord _; exact hord
  | cons s rest ih =>
    intro k groups hord hlt
    simp only [surface_refs_from, List.foldl_cons]
    apply ih (k + 1)
    · exact place_front_order q ⟨k, s⟩ groups hord hlt
    · intro g hg f hf
      rcases place_heads q ⟨k, s⟩ groups g hg f hf with rfl | ⟨g0, hg0, h0⟩
      · exact Nat.lt_succ_self k
      · exact Nat.lt_succ_of_lt (hlt g0 hg0 f h0)

/-- C8: group-by-identical-properties started with an empty result returns groups such
that each group is non-empty and lists, in collection order, exactly the
surfaces that have the property tuple of its first member (so all its members
share one tuple); surfaces of two different groups have different tuples;
the groups are ordered by the position of their first members, that is by
the first appearance of their tuple; every surface is in some group. On
`[A(1, th=1), B(1, th=1), C(2, th=1)]` the result is `{A, B}` then `{C}`. -/
theorem group_const_spec (surfaces : Surfaces) :
    ∃ groups : List SurfacesPtr,
      group_const surfaces [] = some groups
        ∧ (∀ g ∈ groups, ∃ f, g.head? = some f
            ∧ g = (surface_refs surfaces).filter (fun r => decide (r.target.tag = f.target.tag))
            ∧ ∀ r ∈ g, r.target.tag = f.target.tag)
        ∧ groups.Pairwise (fun g g' => ∀ r ∈ g, ∀ r' ∈ g', r.target.tag ≠ r'.target.tag)
        ∧ groups.Pairwise (fun g g' =>
            ∀ f f', g.head? = some f → g'.head? = some f' → f.pos < f'.pos)
        ∧ (∀ r ∈ surface_refs surfaces, ∃ g ∈ groups, r ∈ g)
        ∧ group_const [sample_surface 1 1, sample_surface 1 1, sample_surface 2 1] []
            = some [[⟨0, sample_surface 1 1⟩, ⟨1, sample_surface 1 1⟩],
                    [⟨2, sample_surface 2 1⟩]] := by
  refine ⟨_, group_const_eq_grouped surfaces, ?_, ?_, ?_, ?_, by decide⟩
  · intro g hg
    obtain ⟨k, hk, rfl⟩ := List.mem_map.1 hg
    obtain ⟨f, hf, hfk⟩ := with_tag_head _ k hk
    refine ⟨f, hf, ?_, ?_⟩
    · rw [hfk]; rfl
    · intro r hr
      rw [hfk]
      simpa [with_tag] using (List.mem_filter.1 hr).2
  · rw [List.pairwise_map]
    refine (first_tags_nodup (surface_refs surfaces)).imp ?_
    intro k k' hne r hr r' hr' heq
    have h1 : r.target.tag = k := by simpa [with_tag] using (List.mem_filter.1 hr).2
    have h2 : r'.target.tag = k' := by simpa [with_tag] using (List.mem_filter.1 hr').2
    exact hne (by rw [← h1, ← h2, heq])
  · have h := foldl_place_front_order same_properties surfaces 0 [] List.Pairwise.nil (by simp)
    have hg : group_const surfaces []
        = some ((surface_refs_from 0 surfaces).foldl
            (fun groups r => place same_properties r groups) []) := by
      unfold group_const surface_refs
      exact group_const_loop_eq _ [] (by simp)
    rw [group_const_eq_grouped] at hg
    rw [Option.some.inj hg]
    exact h
  · intro r hr
    refine ⟨with_tag (surface_refs surfaces) r.target.tag, ?_, ?_⟩
    · exact List.mem_map_of_mem _ ((mem_first_tags _ _).2 ⟨r, hr, rfl⟩)
    · simp [with_tag, hr]

/-! ### Reference queries, containment queries and the remaining bulk operations -/

theorem surface_refs_from_pos (surfaces : Surfaces) :
    ∀ k, (surface_refs_from k surfaces).map SurfaceRef.pos = List.range' k surfaces.length := by
  induction surfaces with
  | nil => intro k; simp [surface_refs_from]
  | cons s rest ih => intro k; simp [surface_refs_from, ih, List.range'_succ]

theorem surface_refs_pos_nodup (surfaces : Surfaces) :
    ((surface_refs surfaces).map SurfaceRef.pos).Nodup := by
  unfold surface_refs
  rw [surface_refs_from_pos]
  exact List.nodup_range' _ _

/-- C11: `filter_by_type(list)` returns the references of exactly the surfaces whose
type occurs in the list, in collection order; the positions referenced are
pairwise distinct, so a surface is referenced once however often its type is
listed. -/
theorem filter_by_type_spec (types : List SurfaceType) (surfaces : Surfaces) :
    filter_by_type types surfaces
        = (surface_refs surfaces).filter (fun r => decide (r.target.surface_type ∈ types))
      ∧ ((filter_by_type types surfaces).map SurfaceRef.pos).Nodup := by
  have heq : filter_by_type types surfaces
      = (surface_refs surfaces).filter (fun r => decide (r.target.surface_type ∈ types)) := by
    rw [filter_by_type_eq_filter]
    congr 1
    funext r
    rw [Bool.eq_iff_iff, type_listed_iff]
    simp
  refine ⟨heq, ?_⟩
  rw [heq]
  exact List.Nodup.sublist ((List.filter_sublist _).map _) (surface_refs_pos_nodup surfaces)

/-- C12: `any_bottom_contains(p)` is true exactly when some surface of the collection is
classified bottom and its region contains `p`; on the empty collection it
is false. -/
theorem any_bottom_contains_spec {T : Type} (is_bottom : Surface → Bool)
    (contains : ExPolygon → T → Bool) (item : T) (surfaces : Surfaces) :
    (any_bottom_contains is_bottom contains item surfaces = true
        ↔ ∃ s ∈ surfaces, is_bottom s = true ∧ contains s.expolygon item = true)
      ∧ any_bottom_contains is_bottom contains item [] = false := by
  refine ⟨?_, rfl⟩
  induction surfaces with
  | nil => simp [any_bottom_contains]
  | cons s rest ih =>
    by_cases h : (is_bottom s && contains s.expolygon item) = true
    · simp only [any_bottom_contains, h, if_true, true_iff]
      exact ⟨s, by simp, by simpa using h⟩
    · simp only [any_bottom_contains, h, Bool.false_eq_true, if_false, ih, List.mem_cons]
      constructor
      · rintro ⟨x, hx, hb⟩
        exact ⟨x, Or.inr hx, hb⟩
      · rintro ⟨x, rfl | hx, hb⟩
        · exact absurd (by simpa using hb) h
        · exact ⟨x, hx, hb⟩

/-- C16: `any_internal_contains(probe)` is true exactly when some surface of the
collection has an internal-family type and its region contains the probe; on
the empty collection it is false. -/
theorem any_internal_contains_spec {T : Type} (is_internal : Surface → Bool)
    (contains : ExPolygon → T → Bool) (item : T) (surfaces : Surfaces) :
    (any_internal_contains is_internal contains item surfaces = true
        ↔ ∃ s ∈ surfaces, is_internal s = true ∧ contains s.expolygon item = true)
      ∧ any_internal_contains is_internal contains item [] = false := by
  refine ⟨?_, rfl⟩
  induction surfaces with
  | nil => simp [any_internal_contains]
  | cons s rest ih =>
    by_cases h : (is_internal s && contains s.expolygon item) = true
    · simp only [any_internal_contains, h, if_true, true_iff]
      exact ⟨s, by simp, by simpa using h⟩
    · simp only [any_internal_contains, h, Bool.false_eq_true, if_false, ih, List.mem_cons]
      constructor
      · rintro ⟨x, hx, hb⟩
        exact ⟨x, Or.inr hx, hb⟩
      · rintro ⟨x, rfl | hx, hb⟩
        · exact absurd (by simpa using hb) h
        · exact ⟨x, hx, hb⟩

theorem remove_types_eq_filter_mem (types : List SurfaceType) (surfaces : Surfaces) :
    remove_types types surfaces
      = surfaces.filter (fun s => decide (s.surface_type ∉ types)) := by
  rw [remove_types_eq_filter]
  congr 1
  funext s
  by_cases h : s.surface_type ∈ types
  · simp [h, (type_listed_iff _ _).2 h]
  · have hl : type_listed s.surface_type types = false := by
      rw [Bool.eq_false_iff, Ne, type_listed_iff]
      exact h
    simp [h, hl]

theorem remove_types_loop_eq (types : List SurfaceType) (n : Nat) :
    ∀ (i : Nat) (surfaces : Surfaces), i + n = types.length →
      remove_types_loop types n i surfaces = some (remove_types (types.drop i) surfaces) := by
  induction n with
  | zero =>
    intro i surfaces hlen
    have hi : types.length ≤ i := by omega
    simp [remove_types_loop, List.drop_eq_nil_of_le hi, remove_types]
  | succ n ih =>
    intro i surfaces hlen
    have hi : i < types.length := by omega
    have hget : types[i]? = some types[i] := List.getElem?_eq_getElem hi
    simp only [remove_types_loop, hget]
    rw [ih (i + 1) _ (by omega), List.drop_eq_getElem_cons hi]
    rfl

/-- C14: `remove_types(list)`, in the initializer-list overload and in the C-array
overload called with the array's length, leaves exactly the surfaces whose
type does not occur in the list, in their original relative order; two lists
with the same entries, in whatever order and multiplicity, give the same
result. -/
theorem remove_types_spec (types : List SurfaceType) (surfaces : Surfaces) :
    remove_types types surfaces
        = surfaces.filter (fun s => decide (s.surface_type ∉ types))
      ∧ remove_types_array types types.length surfaces
        = some (surfaces.filter (fun s => decide (s.surface_type ∉ types)))
      ∧ ∀ types2 : List SurfaceType, (∀ t, t ∈ types2 ↔ t ∈ types) →
          remove_types types2 surfaces = remove_types types surfaces := by
  refine ⟨remove_types_eq_filter_mem types surfaces, ?_, ?_⟩
  · unfold remove_types_array
    rw [remove_types_loop_eq types types.length 0 surfaces (by omega), List.drop_zero,
      remove_types_eq_filter_mem]
  · intro types2 hsame
    rw [remove_types_eq_filter_mem, remove_types_eq_filter_mem]
    congr 1
    funext s
    rw [Bool.eq_iff_iff]
    simp [hsame]

theorem modify_last_concat {α : Type} (f : α → α) (l : List α) (a : α) :
    (l ++ [a]).modify f ((l ++ [a]).length - 1) = l ++ [f a] := by
  induction l with
  | nil => simp
  | cons x xs ih =>
    simp only [List.cons_append, List.length_cons, List.length_append, List.length_nil,
      List.length_singleton, Nat.add_sub_cancel, Nat.zero_add] at ih ⊢
    rw [List.modify_succ_cons, ih]

/-- C15: `append(r, t)` with a template surface keeps the surfaces already in the
collection as a prefix and adds one surface per region of `r`, in the order of
`r`, each with that region as geometry and the template's type, thickness,
layer count and bridge angle. -/
theorem append_templ_spec (src : ExPolygons) (templ : Surface) (surfaces : Surfaces) :
    append_templ src templ surfaces
      = surfaces ++ src.map (fun region =>
          ({ surface_type := templ.surface_type, expolygon := region,
             thickness := templ.thickness, thickness_layers := templ.thickness_layers,
             bridge_angle := templ.bridge_angle } : Surface)) := by
  unfold append_templ
  have h : (fun (cur : Surfaces) (it : ExPolygon) =>
        let pushed := cur ++ [templ]
        pushed.modify (fun back => { back with expolygon := it }) (pushed.length - 1))
      = (fun cur it => cur ++ [({ templ with expolygon := it } : Surface)]) := by
    funext cur it
    exact modify_last_concat _ cur templ
  rw [h, foldl_push_map]

theorem lor_ne_zero_of_right_ne_zero (a b : Nat) (hb : b ≠ 0) : a ||| b ≠ 0 := by
  intro h
  apply hb
  apply Nat.eq_of_testBit_eq
  intro i
  have hi : (a ||| b).testBit i = false := by rw [h]; simp
  rw [Nat.testBit_or, Bool.or_eq_false_iff] at hi
  simp [hi.2]

/-- C17: with a non-zero mask `filter_by_incl_type(mask, out)` matches every surface
whatever its type: it appends the whole flattened polygon sequence of the
collection to the accumulator. -/
theorem filter_by_incl_type_nonzero_mask (mask : SurfaceType) (out : Polygons)
    (surfaces : Surfaces) (hmask : mask ≠ 0) :
    filter_by_incl_type mask out surfaces = out ++ to_polygons surfaces := by
  unfold filter_by_incl_type
  rw [foldl_push_flat_if, to_polygons_eq]
  congr 2
  rw [List.filter_eq_self]
  intro s _
  simpa [bne] using lor_ne_zero_of_right_ne_zero s.surface_type mask hmask

/-- C17 at the mask 1 and two surfaces of types 2 and 4 (no bit shared with the mask). -/
theorem filter_by_incl_type_nonzero_mask_witness :
    (1 : SurfaceType) ≠ 0
      ∧ filter_by_incl_type 1 [] [sample_surface 2 1, sample_surface 4 1]
        = [] ++ to_polygons [sample_surface 2 1, sample_surface 4 1] :=
  ⟨by decide,
   filter_by_incl_type_nonzero_mask 1 [] [sample_surface 2 1, sample_surface 4 1] (by decide)⟩

/-! ### The C-array `keep_types` -/

theorem keep_scan_eq (st : SurfaceType) (types : List SurfaceType) (n : Nat) :
    ∀ k, k + n = types.length →
      keep_scan st types n k = some (decide (st ∈ types.drop k)) := by
  induction n with
  | zero =>
    intro k hlen
    have hk : types.length ≤ k := by omega
    simp [keep_scan, List.drop_eq_nil_of_le hk]
  | succ n ih =>
    intro k hlen
    have hk : k < types.length := by omega
    have hget : types[k]? = some types[k] := List.getElem?_eq_getElem hk
    have hd : types.drop k = types[k] :: types.drop (k + 1) := List.drop_eq_getElem_cons hk
    by_cases h : st = types[k]
    · have hs : keep_scan st types (n + 1) k = some true := by simp [keep_scan, hget, h]
      rw [hs]
      congr 1
      symm
      rw [decide_eq_true_iff, hd]
      exact List.mem_cons.2 (Or.inl h)
    · have hs : keep_scan st types (n + 1) k = keep_scan st types n (k + 1) := by
        simp [keep_scan, hget, h]
      rw [hs, ih (k + 1) (by omega)]
      congr 1
      rw [decide_eq_decide, hd, List.mem_cons]
      simp only [h, false_or]

theorem swap_at_take_drop {α : Type} (v : List α) (i j : Nat) (hji : j < i)
    (hi : i < v.length) :
    (swap_at v i j).take (j + 1) = v.take j ++ [v[i]]
      ∧ (swap_at v i j).drop (i + 1) = v.drop (i + 1)
      ∧ (swap_at v i j).length = v.length := by
  have hj : j < v.length := by omega
  have hswap : swap_at v i j = (v.set i v[j]).set j v[i] := by
    simp [swap_at, List.getElem?_eq_getElem hi, List.getElem?_eq_getElem hj]
  rw [hswap]
  refine ⟨?_, ?_, by simp⟩
  · rw [List.take_succ, List.set_take,
      List.set_eq_of_length_le (by simp : ((v.set i v[j]).take j).length ≤ j),
      List.take_set_of_lt _ _ hji]
    simp [List.getElem?_set, hj]
  · rw [List.drop_set_of_lt _ _ (by omega : j < i + 1),
      List.drop_set_of_lt _ _ (by omega : i < i + 1)]

theorem keep_types_loop_take (types : List SurfaceType) (fuel : Nat) :
    ∀ (v : Surfaces) (j i : Nat), j ≤ i → i + fuel = v.length →
      ∃ r, keep_types_loop types types.length fuel v j i = some r
        ∧ r.1.take r.2
            = v.take j ++ (v.drop i).filter (fun s => decide (s.surface_type ∈ types))
        ∧ r.1.length = v.length ∧ r.2 ≤ r.1.length := by
  induction fuel with
  | zero =>
    intro v j i hji hlen
    have hi : v.length ≤ i := by omega
    exact ⟨(v, j), rfl, by simp [List.drop_eq_nil_of_le hi], rfl, by simp; omega⟩
  | succ fuel ih =>
    intro v j i hji hlen
    have hi : i < v.length := by omega
    have hget : v[i]? = some v[i] := List.getElem?_eq_getElem hi
    have hdrop : v.drop i = v[i] :: v.drop (i + 1) := List.drop_eq_getElem_cons hi
    have hscan := keep_scan_eq v[i].surface_type types types.length 0 (by omega)
    rw [List.drop_zero] at hscan
    by_cases hkeep : v[i].surface_type ∈ types
    · have hstep : keep_types_loop types types.length (fuel + 1) v j i
          = keep_types_loop types types.length fuel
              (if j < i then swap_at v i j else v) (j + 1) (i + 1) := by
        simp [keep_types_loop, hget, hscan, hkeep]
      have hv : ((if j < i then swap_at v i j else v).take (j + 1) = v.take j ++ [v[i]])
          ∧ (if j < i then swap_at v i j else v).drop (i + 1) = v.drop (i + 1)
          ∧ (if j < i then swap_at v i j else v).length = v.length := by
        by_cases hlt : j < i
        · simp only [hlt, if_true]
          exact swap_at_take_drop v i j hlt hi
        · have hij : j = i := by omega
          subst hij
          rw [if_neg hlt]
          refine ⟨?_, rfl, rfl⟩
          rw [List.take_succ, hget]
          rfl
      obtain ⟨r, hr, htake, hlen2, hle⟩ :=
        ih (if j < i then swap_at v i j else v) (j + 1) (i + 1) (by omega) (by rw [hv.2.2]; omega)
      refine ⟨r, by rw [hstep, hr], ?_, by rw [hlen2, hv.2.2], hle⟩
      rw [htake, hv.1, hv.2.1, hdrop, List.filter_cons]
      simp [hkeep]
    · have hstep : keep_types_loop types types.length (fuel + 1) v j i
          = keep_types_loop types types.length fuel v j (i + 1) := by
        simp [keep_types_loop, hget, hscan, hkeep]
      obtain ⟨r, hr, htake, hlen2, hle⟩ := ih v j (i + 1) (by omega) (by omega)
      refine ⟨r, by rw [hstep, hr], ?_, hlen2, hle⟩
      rw [htake, hdrop, List.filter_cons]
      simp [hkeep]

/-- C13: the C-array overload `keep_types(types, ntypes)`, called with the length of the
array, returns and leaves exactly the surfaces whose type occurs in the array,
in their original relative order; with `ntypes = 0` the collection becomes
empty. -/
theorem keep_types_array_spec (types : List SurfaceType) (surfaces : Surfaces) :
    keep_types_array types types.length surfaces
        = some (surfaces.filter (fun s => decide (s.surface_type ∈ types)))
      ∧ keep_types_array [] 0 surfaces = some [] := by
  have hmain : ∀ ts : List SurfaceType, keep_types_array ts ts.length surfaces
      = some (surfaces.filter (fun s => decide (s.surface_type ∈ ts))) := by
    intro ts
    obtain ⟨r, hr, htake, _, hle⟩ :=
      keep_types_loop_take ts surfaces.length surfaces 0 0 (Nat.le_refl 0) (by omega)
    unfold keep_types_array
    rw [hr]
    simp only [List.take_zero, List.nil_append, List.drop_zero] at htake
    rw [← htake]
    by_cases hlt : r.2 < r.1.length
    · simp [hlt, erase_to_end]
    · have heq : r.2 = r.1.length := by omega
      simp [hlt, heq]
  refine ⟨hmain types, ?_⟩
  have h := hmain []
  simpa using h

/-! ### The groups partition the collection -/

theorem place_flatten_perm (q : Surface → Surface → Bool) (r : SurfaceRef)
    (groups : List SurfacesPtr) :
    (place q r groups).flatten.Perm (groups.flatten ++ [r]) := by
  induction groups with
  | nil => simp [place]
  | cons g rest ih =>
    by_cases hacc : front_accepts q r.target g = true
    · simp only [place, hacc, if_true, List.flatten_cons, List.append_assoc]
      exact List.Perm.append_left g List.perm_append_comm
    · simp only [place, hacc, Bool.false_eq_true, if_false, List.flatten_cons,
        List.append_assoc]
      exact List.Perm.append_left g ih

theorem foldl_place_flatten_perm (q : Surface → Surface → Bool) (l : SurfacesPtr) :
    ∀ groups : List SurfacesPtr,
      (l.foldl (fun groups r => place q r groups) groups).flatten.Perm
        (groups.flatten ++ l) := by
  induction l with
  | nil => intro groups; simp
  | cons r rest ih =>
    intro groups
    rw [List.foldl_cons]
    refine (ih (place q r groups)).trans ?_
    have h := (place_flatten_perm q r groups).append_right rest
    simpa using h

theorem place_sublist (q : Surface → Surface → Bool) (r : SurfaceRef) (l : SurfacesPtr)
    (groups : List SurfacesPtr) (h : ∀ g ∈ groups, g.Sublist l) :
    ∀ g ∈ place q r groups, g.Sublist (l ++ [r]) := by
  induction groups with
  | nil =>
    intro g hg
    simp only [place, List.mem_singleton] at hg
    subst hg
    exact List.sublist_append_right l [r]
  | cons g0 rest ih =>
    have hrest := ih (fun g hg => h g (by simp [hg]))
    have hold : ∀ g ∈ g0 :: rest, g.Sublist (l ++ [r]) :=
      fun g hg => (h g hg).trans (List.sublist_append_left l [r])
    intro g hg
    by_cases hacc : front_accepts q r.target g0 = true
    · simp only [place, hacc, if_true, List.mem_cons] at hg
      rcases hg with rfl | hg
      · exact (h g0 (by simp)).append (List.Sublist.refl [r])
      · exact hold g (by simp [hg])
    · simp only [place, hacc, Bool.false_eq_true, if_false, List.mem_cons] at hg
      rcases hg with rfl | hg
      · exact hold g (by simp)
      · exact hrest g hg

theorem foldl_place_sublist (q : Surface → Surface → Bool) (l1 : SurfacesPtr) :
    ∀ (l0 : SurfacesPtr) (groups : List SurfacesPtr), (∀ g ∈ groups, g.Sublist l0) →
      ∀ g ∈ l1.foldl (fun groups r => place q r groups) groups, g.Sublist (l0 ++ l1) := by
  induction l1 with
  | nil => intro l0 groups h g hg; simpa using h g hg
  | cons r rest ih =>
    intro l0 groups h g hg
    rw [List.foldl_cons] at hg
    have := ih (l0 ++ [r]) (place q r groups) (place_sublist q r l0 groups h) g hg
    simpa using this

theorem foldl_place_ne_nil (q : Surface → Surface → Bool) (l : SurfacesPtr) :
    ∀ groups : List SurfacesPtr, (∀ g ∈ groups, g ≠ []) →
      ∀ g ∈ l.foldl (fun groups r => place q r groups) groups, g ≠ [] := by
  induction l with
  | nil => intro groups h; exact h
  | cons r rest ih =>
    intro groups h
    exact ih _ (place_ne_nil q r groups h)

theorem length_le_flatten_length (groups : List SurfacesPtr) (h : ∀ g ∈ groups, g ≠ []) :
    groups.length ≤ groups.flatten.length := by
  induction groups with
  | nil => simp
  | cons g rest ih =>
    have hg : g ≠ [] := h g (by simp)
    have hpos : 0 < g.length := List.length_pos.2 hg
    have := ih (fun g' hg' => h g' (by simp [hg']))
    simp only [List.length_cons, List.flatten_cons, List.length_append]
    omega

theorem surface_refs_length (surfaces : Surfaces) :
    (surface_refs surfaces).length = surfaces.length := by
  have h := congrArg List.length (surface_refs_from_target surfaces 0)
  simpa [surface_refs] using h

/-- C18: group-by-mergeability started with an empty result partitions the collection:
every group is non-empty; the concatenation of the groups is a permutation
of the references to the surfaces of the collection and references pairwise
distinct positions, so every surface is in exactly one group exactly once;
the members of a group are in collection order; and there are at most as
many groups as surfaces. -/
theorem group_partitions (could_merge : Surface → Surface → Bool) (surfaces : Surfaces) :
    (∀ g ∈ group could_merge surfaces [], g ≠ [])
      ∧ (group could_merge surfaces []).flatten.Perm (surface_refs surfaces)
      ∧ ((group could_merge surfaces []).flatten.map SurfaceRef.pos).Nodup
      ∧ (∀ g ∈ group could_merge surfaces [], g.Sublist (surface_refs surfaces))
      ∧ (group could_merge surfaces []).length ≤ surfaces.length := by
  rw [group_eq_foldl_place]
  have hne := foldl_place_ne_nil could_merge (surface_refs surfaces) [] (by simp)
  have hperm := foldl_place_flatten_perm could_merge (surface_refs surfaces) []
  simp only [List.flatten_nil, List.nil_append] at hperm
  refine ⟨hne, hperm, ?_, ?_, ?_⟩
  · exact ((hperm.map SurfaceRef.pos).nodup_iff).2 (surface_refs_pos_nodup surfaces)
  · intro g hg
    have h := foldl_place_sublist could_merge (surface_refs surfaces) [] [] (by simp) g hg
    simpa using h
  · have h1 := length_le_flatten_length _ hne
    have h2 := hperm.length_eq
    rw [surface_refs_length] at h2
    omega

/-! ### The two grouping variants agree on equality of the property tuple -/

/-- C19: when `could_merge(a, b)` holds exactly if `a` and `b` have the same
(surface_type, thickness, thickness_layers, bridge_angle), group-by-identical-
properties started with an empty result succeeds and returns the very list
of groups that group-by-mergeability returns. -/
theorem group_const_eq_group (could_merge : Surface → Surface → Bool) (surfaces : Surfaces)
    (hmerge : ∀ a b, could_merge a b = true ↔ a.tag = b.tag) :
    group_const surfaces [] = some (group could_merge surfaces []) := by
  have hq : could_merge = same_properties := by
    funext a b
    rw [Bool.eq_iff_iff, hmerge, same_properties_iff]
  rw [hq, group_eq_foldl_place]
  unfold group_const
  exact group_const_loop_eq _ [] (by simp)

/-- C19 applied to the predicate that compares the property tuples. -/
theorem group_const_eq_group_witness :
    (∀ a b : Surface, (fun x y : Surface => decide (x.tag = y.tag)) a b = true ↔ a.tag = b.tag)
      ∧ group_const [sample_surface 1 1, sample_surface 2 1, sample_surface 1 1] []
        = some (group (fun x y : Surface => decide (x.tag = y.tag))
            [sample_surface 1 1, sample_surface 2 1, sample_surface 1 1] []) :=
  ⟨fun _ _ => decide_eq_true_iff,
   group_const_eq_group (fun x y : Surface => decide (x.tag = y.tag))
     [sample_surface 1 1, sample_surface 2 1, sample_surface 1 1]
     (fun _ _ => decide_eq_true_iff)⟩

/-! ### The `const` variant on a result that already holds groups -/

theorem place_extends (q : Surface → Surface → Bool) (r : SurfaceRef)
    (groups : List SurfacesPtr) :
    ∀ (i : Nat) (g : SurfacesPtr), groups[i]? = some g →
      ∃ ext, (place q r groups)[i]? = some (g ++ ext) := by
  induction groups with
  | nil => intro i g h; simp at h
  | cons g0 rest ih =>
    intro i g h
    by_cases hacc : front_accepts q r.target g0 = true
    · simp only [place, hacc, if_true]
      cases i with
      | zero =>
        simp only [List.getElem?_cons_zero, Option.some.injEq] at h
        subst h
        exact ⟨[r], by simp⟩
      | succ i =>
        simp only [List.getElem?_cons_succ] at h
        exact ⟨[], by simp [h]⟩
    · simp only [place, hacc, Bool.false_eq_true, if_false]
      cases i with
      | zero =>
        simp only [List.getElem?_cons_zero, Option.some.injEq] at h
        subst h
        exact ⟨[], by simp⟩
      | succ i =>
        simp only [List.getElem?_cons_succ] at h ⊢
        exact ih i g h

theorem foldl_place_extends (q : Surface → Surface → Bool) (l : SurfacesPtr) :
    ∀ (groups : List SurfacesPtr) (i : Nat) (g : SurfacesPtr), groups[i]? = some g →
      ∃ ext, (l.foldl (fun groups r => place q r groups) groups)[i]? = some (g ++ ext) := by
  induction l with
  | nil => intro groups i g h; exact ⟨[], by simpa using h⟩
  | cons r rest ih =>
    intro groups i g h
    obtain ⟨e1, h1⟩ := place_extends q r groups i g h
    obtain ⟨e2, h2⟩ := ih (place q r groups) i (g ++ e1) h1
    exact ⟨e1 ++ e2, by rw [List.foldl_cons, h2, List.append_assoc]⟩

/-- C20: the `const` variant of `group` takes `front()` of the groups it scans without
an emptiness check. When all groups of the initial result are non-empty (the
empty result included) the call succeeds, every group of the result is
non-empty, and each group that was present keeps its place and its members
and is only extended at its end. On a result that holds an empty group the
`const` variant fails where the mutable variant skips that group. -/
theorem group_const_on_nonempty_groups (surfaces : Surfaces) (retval : List SurfacesPtr)
    (hne : ∀ g ∈ retval, g ≠ []) :
    (∃ groups : List SurfacesPtr,
        group_const surfaces retval = some groups
          ∧ (∀ g ∈ groups, g ≠ [])
          ∧ retval.length ≤ groups.length
          ∧ ∀ (i : Nat) (g : SurfacesPtr), retval[i]? = some g →
              ∃ ext, groups[i]? = some (g ++ ext))
      ∧ group_const [sample_surface 1 1] [[]] = none
      ∧ group same_properties [sample_surface 1 1] [[]] = [[], [⟨0, sample_surface 1 1⟩]] := by
  refine ⟨⟨_, group_const_loop_eq (surface_refs surfaces) retval hne,
    foldl_place_ne_nil same_properties _ retval hne, ?_,
    foldl_place_extends same_properties _ retval⟩, by decide, by decide⟩
  by_contra hlt
  have hlt2 : ((surface_refs surfaces).foldl
      (fun groups r => place same_properties r groups) retval).length < retval.length := by
    omega
  have hsome : retval[((surface_refs surfaces).foldl
      (fun groups r => place same_properties r groups) retval).length]?
        = some (retval[((surface_refs surfaces).foldl
      (fun groups r => place same_properties r groups) retval).length]) :=
    List.getElem?_eq_getElem hlt2
  obtain ⟨ext, hext⟩ := foldl_place_extends same_properties _ retval _ _ hsome
  rw [List.getElem?_eq_none (Nat.le_refl _)] at hext
  exact Option.noConfusion hext

/-- C20 on a result that already holds one group with a foreign surface of type 1. -/
theorem group_const_on_nonempty_groups_witness :
    (∀ g ∈ [[(⟨7, sample_surface 1 1⟩ : SurfaceRef)]], g ≠ [])
      ∧ ((∃ groups : List SurfacesPtr,
          group_const [sample_surface 2 1, sample_surface 1 1]
              [[⟨7, sample_surface 1 1⟩]] = some groups
            ∧ (∀ g ∈ groups, g ≠ [])
            ∧ [[(⟨7, sample_surface 1 1⟩ : SurfaceRef)]].length ≤ groups.length
            ∧ ∀ (i : Nat) (g : SurfacesPtr),
                [[(⟨7, sample_surface 1 1⟩ : SurfaceRef)]][i]? = some g →
                ∃ ext, groups[i]? = some (g ++ ext))
        ∧ group_const [sample_surface 1 1] [[]] = none
        ∧ group same_properties [sample_surface 1 1] [[]]
            = [[], [⟨0, sample_surface 1 1⟩]]) :=
  ⟨by simp,
   group_const_on_nonempty_groups [sample_surface 2 1, sample_surface 1 1]
     [[⟨7, sample_surface 1 1⟩]] (by simp)⟩


end SurfaceCollection

end Slic3r
